import Mathlib

/-!
Verification of the Manifest Acquisition & Packaging Pipeline of
steam-depot-online (`src/app.py`).  The pipeline's pure logic is given a
shallow embedding: the file system is an association list from paths to byte
strings, network responses are supplied by an oracle environment, and every
decision made by the Python code (mirror iteration, strict-mode key search,
repository failover, script generation, packaging) is translated function by
function.  The VDF parser is a third-party library, so it enters the model as
an oracle field (`parseDepots`); everything built on top of it — the dedup of
extracted keys, the strict-mode priority between `key.vdf` and `config.vdf`,
the failover loop, the zip packaging — is translated from the source.
-/

namespace SDO

/-- Byte strings are modelled as lists of naturals. -/
abbrev Bytes := List Nat

/-- A `(depotId, decryptionKey)` pair, app.py's `key_tuple`. -/
abbrev DK := String × String

/-! ### Run-scoped dedup of depot keys (app.py 1912-1924, 2341-2346, 2419-2426, 2468-2470)

Every place the source accumulates depot keys uses the pattern
`if key_tuple not in collected: collected.append(key_tuple)`; `addAll` is
that pattern folded over a batch of incoming pairs. -/

/-- Append each pair of `ks` to `l` unless it is already present
(structural equality), preserving first-seen order. -/
def addAll (l ks : List DK) : List DK :=
  ks.foldl (fun acc dk => if dk ∈ acc then acc else acc ++ [dk]) l

/-- Modelled from the spec: "insertion-order dedup — the same pair is never
stored twice, but first-seen order is preserved".  Keeps the first occurrence
of each element and erases all later duplicates. -/
def specFirstSeen (l : List DK) : List DK :=
  match l with
  | [] => []
  | a :: t => a :: specFirstSeen (t.filter (fun b => decide (b ≠ a)))
termination_by l.length
decreasing_by
  simp only [List.length_cons]
  exact Nat.lt_succ_of_le (List.length_filter_le _ _)

theorem addAll_nil (l : List DK) : addAll l [] = l := rfl

theorem addAll_cons (l : List DK) (a : DK) (ks : List DK) :
    addAll l (a :: ks) = addAll (if a ∈ l then l else l ++ [a]) ks := rfl

theorem mem_addAll (ks : List DK) :
    ∀ l a, a ∈ addAll l ks ↔ a ∈ l ∨ a ∈ ks := by
  induction ks with
  | nil => simp [addAll_nil]
  | cons b ks ih =>
    intro l a
    rw [addAll_cons]
    by_cases hb : b ∈ l
    · rw [if_pos hb, ih]
      constructor
      · rintro (h | h)
        · exact Or.inl h
        · exact Or.inr (List.mem_cons_of_mem _ h)
      · rintro (h | h)
        · exact Or.inl h
        · rcases List.mem_cons.mp h with rfl | h
          · exact Or.inl hb
          · exact Or.inr h
    · rw [if_neg hb, ih]
      simp only [List.mem_append, List.mem_singleton, List.mem_cons]
      tauto

theorem nodup_addAll (ks : List DK) :
    ∀ l, l.Nodup → (addAll l ks).Nodup := by
  induction ks with
  | nil =>
    intro l h
    simpa [addAll_nil] using h
  | cons b ks ih =>
    intro l h
    rw [addAll_cons]
    by_cases hb : b ∈ l
    · rw [if_pos hb]; exact ih l h
    · rw [if_neg hb]
      refine ih _ ?_
      simp [List.nodup_append, h, hb]

theorem filter_not_mem_nil (ks : List DK) :
    ks.filter (fun b => decide (b ∉ ([] : List DK))) = ks := by
  induction ks with
  | nil => rfl
  | cons a ks ih => simp [List.filter, ih]

theorem addAll_spec (ks : List DK) :
    ∀ l, addAll l ks = l ++ specFirstSeen (ks.filter (fun b => decide (b ∉ l))) := by
  induction ks with
  | nil => intro l; simp [addAll_nil, specFirstSeen]
  | cons b ks ih =>
    intro l
    rw [addAll_cons]
    by_cases hb : b ∈ l
    · rw [if_pos hb, ih]
      have h1 : List.filter (fun x => decide (x ∉ l)) (b :: ks)
          = List.filter (fun x => decide (x ∉ l)) ks := by
        simp [List.filter_cons, hb]
      rw [h1]
    · rw [if_neg hb, ih]
      have h1 : List.filter (fun x => decide (x ∉ l)) (b :: ks)
          = b :: List.filter (fun x => decide (x ∉ l)) ks := by
        simp [List.filter_cons, hb]
      rw [h1, specFirstSeen]
      have h2 : (List.filter (fun x => decide (x ∉ l)) ks).filter (fun x => decide (x ≠ b))
          = ks.filter (fun x => decide (x ∉ l ++ [b])) := by
        rw [List.filter_filter]
        refine List.filter_congr ?_
        intro x _
        by_cases h3 : x ∈ l <;> by_cases h4 : x = b <;> simp [h3, h4]
      rw [h2]
      simp

theorem addAll_absorb (ks : List DK) :
    ∀ l, (∀ a ∈ ks, a ∈ l) → addAll l ks = l := by
  induction ks with
  | nil => intro l _; rfl
  | cons b ks ih =>
    intro l h
    rw [addAll_cons, if_pos (h b (List.mem_cons_self _ _))]
    exact ih l (fun a ha => h a (List.mem_cons_of_mem _ ha))

/-- C7: the run-scoped depot-key list is an insertion-ordered set: the
result of accumulating any sequence of extracted pairs has no duplicate
entry, equals the first-seen-order dedup of the input (so surviving entries
appear in first-seen order), and feeding the same pairs again — e.g. from a
cached and a re-parsed copy of the same file — adds nothing. -/
theorem C7_dedup_insertion_order (ks : List DK) :
    (addAll [] ks).Nodup ∧ addAll [] ks = specFirstSeen ks ∧
      addAll (addAll [] ks) ks = addAll [] ks := by
  refine ⟨nodup_addAll ks [] List.nodup_nil, ?_, ?_⟩
  · rw [addAll_spec ks [], filter_not_mem_nil]
    simp
  · exact addAll_absorb ks _ (fun a ha => (mem_addAll ks [] a).mpr (Or.inr ha))

/-- Witness for C7 at a concrete input: feeding the pair ("100", "AAA")
twice stores it exactly once. -/
theorem C7_witness :
    addAll [] [(("100" : String), ("AAA" : String)), ("100", "AAA")]
      = specFirstSeen [(("100" : String), ("AAA" : String)), ("100", "AAA")] :=
  (C7_dedup_insertion_order [("100", "AAA"), ("100", "AAA")]).2.1

/-! ### String and path helpers

Python string/`os.path` operations are re-implemented structurally on
`List Char` so that the kernel can evaluate them. -/

/-- ASCII lower-casing of one character (Python `str.lower` restricted to
the ASCII names handled by the app). -/
def lowerChar (c : Char) : Char :=
  if 65 ≤ c.toNat ∧ c.toNat ≤ 90 then Char.ofNat (c.toNat + 32) else c

/-- Python `s.lower()`. -/
def toLowerS (s : String) : String := String.mk (s.data.map lowerChar)

/-- Python `s.endswith(suf)`. -/
def endsWithS (s suf : String) : Bool := suf.data.isSuffixOf s.data

/-- Python `s.startswith(p)`. -/
def startsWithS (s p : String) : Bool := p.data.isPrefixOf s.data

def slashS : String := "/"

def keyVdfName : String := "key.vdf"

def configVdfName : String := "config.vdf"

def manifestExtS : String := ".manifest"

def vdfExtS : String := ".vdf"

def zipExtS : String := ".zip"

def encZipExtS : String := " - encrypted.zip"

def tempTailS : String := "_temp"

def underscoreS : String := "_"

def luaExtS : String := ".lua"

def newlineS : String := "\n"

/-- `os.path.join` for one relative component. -/
def pjoin (a b : String) : String := a ++ slashS ++ b

/-- `os.path.basename`: everything after the last slash. -/
def basenameOf (p : String) : String :=
  String.mk ((p.data.reverse.takeWhile (fun c => !(c == '/'))).reverse)

/-- `os.path.dirname`: everything before the last slash. -/
def dirnameOf (p : String) : String :=
  String.mk (((p.data.reverse.dropWhile (fun c => !(c == '/'))).drop 1).reverse)

/-- Whether `p` denotes a file strictly inside directory `d`. -/
def underDirB (p d : String) : Bool := (d.data ++ [ '/' ]).isPrefixOf p.data

/-- `os.path.relpath p (start := d)` for a file inside `d`. -/
def dropUnder (d p : String) : Option String :=
  if underDirB p d then some (String.mk (p.data.drop (d.data.length + 1))) else none

/-! ### File-system state

The on-disk state touched by the pipeline is an association list from
absolute paths to byte strings; insertion overwrites. -/

abbrev FS := List (String × Bytes)

def fsLookup : FS → String → Option Bytes
  | [], _ => none
  | e :: rest, p => if e.1 == p then some e.2 else fsLookup rest p

/-- `os.path.exists`. -/
def fsHas (fs : FS) (p : String) : Bool := (fsLookup fs p).isSome

/-- `os.remove`. -/
def fsRemove (fs : FS) (p : String) : FS := fs.filter (fun e => !(e.1 == p))

/-- Writing a file (`open(path, "wb")`). -/
def fsInsert (fs : FS) (p : String) (b : Bytes) : FS := (p, b) :: fsRemove fs p

/-- All file paths below directory `d` (`os.walk`). -/
def filesUnder (fs : FS) (d : String) : List String :=
  fs.filterMap (fun e => if underDirB e.1 d then some e.1 else none)

/-- All paths below `d`, relative to `d` (`os.walk` + `os.path.relpath`). -/
def relFilesUnder (fs : FS) (d : String) : List String :=
  fs.filterMap (fun e => dropUnder d e.1)

/-! ### Repositories and the network oracle -/

/-- The three repository display categories of `self.repos` (app.py):
"Encrypted" and "Decrypted" are KeySource kinds, "Branch" is PassThrough. -/
inductive RepoType
  | Encrypted
  | Decrypted
  | Branch
deriving DecidableEq

/-- `self.repos.get(name)`. -/
def lookupRT : List (String × RepoType) → String → Option RepoType
  | [], _ => none
  | e :: rest, r => if e.1 == r then some e.2 else lookupRT rest r

/-- One entry of the recursive git tree listing (`{path, type}`). -/
structure TreeItem where
  path : String
  isBlob : Bool
deriving DecidableEq

/-- The ambient state and network oracle of one pipeline run.  `parseDepots`
abstracts the third-party `vdf.loads` library: it returns, in iteration
order, the `(str(depot_id), DecryptionKey)` pairs that the parsed `depots`
section yields (empty for malformed or key-less documents). -/
structure Env where
  repos : List (String × RepoType)
  strict : Bool
  cancel : Bool
  branchResolves : String → Bool
  treeOk : String → Bool
  treeItems : String → List TreeItem
  fileContent : String → String → Option Bytes
  zipContent : String → Option Bytes
  parseDepots : Bytes → List DK

/-! ### `get_manifest` (app.py 1840-1971)

Cache rule: an existing `.manifest` is never re-downloaded and never parsed;
an existing `.vdf` is read from disk and parsed; any other existing file is
re-downloaded.  Downloaded bytes are written back, `.vdf` content is fed to
the key extractor with per-file insertion-order dedup, and a falsy (empty)
body yields nothing. -/

/-- `should_download`: skip the download for an existing `.manifest` or
`.vdf`; any other existing file is fetched (and overwritten) again. -/
def shouldDownloadB (fs : FS) (savePath pl : String) : Bool :=
  if fsHas fs savePath then
    if endsWithS pl manifestExtS then false
    else if endsWithS pl vdfExtS then false
    else true
  else true

/-- `content_bytes`: the downloaded body, or for a cached `.vdf` the bytes
read back from disk. -/
def contentOf (env : Env) (repo path : String) (fs : FS) (savePath pl : String) : Option Bytes :=
  if shouldDownloadB fs savePath pl then env.fileContent repo path
  else if endsWithS pl vdfExtS then fsLookup fs savePath
  else none

def getManifest (env : Env) (repo path dir : String) (fs : FS) : FS × List DK :=
  if env.cancel then (fs, [])
  else
    match contentOf env repo path fs (pjoin dir path) (toLowerS path) with
    | none => (fs, [])
    | some c =>
      if c.isEmpty then (fs, [])
      else
        (if shouldDownloadB fs (pjoin dir path) (toLowerS path)
          then fsInsert fs (pjoin dir path) c else fs,
         if endsWithS (toLowerS path) vdfExtS then addAll [] (env.parseDepots c) else [])

/-! ### Strict-mode key-file search (app.py 2298-2360) -/

/-- Key-file candidates of a tree: blob entries whose lower-cased basename
is `key.vdf` or `config.vdf`, mapped to that basename (`key_file_paths_in_tree`). -/
def keyFilePairsRaw (items : List TreeItem) : List (String × String) :=
  items.filterMap (fun it =>
    if it.isBlob then
      let bn := basenameOf (toLowerS it.path)
      if bn == keyVdfName || bn == configVdfName then some (it.path, bn) else none
    else none)

/-- Python `dict` keyed by path: keep the first pair for each path. -/
def dedupFst : List (String × String) → List String → List (String × String)
  | [], _ => []
  | e :: rest, seen =>
    if seen.contains e.1 then dedupFst rest seen else e :: dedupFst rest (e.1 :: seen)

def keyFilePairs (items : List TreeItem) : List (String × String) :=
  dedupFst (keyFilePairsRaw items) []

/-- Code-point lexicographic `≤` on character lists (Python string order). -/
def lexLeB : List Char → List Char → Bool
  | [], _ => true
  | _ :: _, [] => false
  | a :: as, b :: bs =>
    if a.toNat < b.toNat then true
    else if b.toNat < a.toNat then false
    else lexLeB as bs

/-- `≤` by a `(Nat, string)` sort key, as produced by Python tuple keys. -/
def pairLeB {α : Type} (k : α → Nat × List Char) (a b : α) : Bool :=
  if (k a).1 < (k b).1 then true
  else if (k b).1 < (k a).1 then false
  else lexLeB (k a).2 (k b).2

/-- Sort key `(basename != "key.vdf", path)` of the strict-mode search. -/
def prioRank (e : String × String) : Nat := if e.2 == keyVdfName then 0 else 1

def kPrio (e : String × String) : Nat × List Char := (prioRank e, e.1.data)

def rPrio (a b : String × String) : Prop := pairLeB kPrio a b = true

instance : DecidableRel rPrio := fun _ _ => inferInstanceAs (Decidable (_ = true))

/-- `prioritized_key_files`: candidates sorted with `key.vdf` first, then by
path (Python's stable sort on the tuple key). -/
def prioritizedKeyFiles (items : List TreeItem) : List (String × String) :=
  List.insertionSort rPrio (keyFilePairs items)

/-- Result of the strict-mode key-file loop.  `trace` is a ghost record of
the `get_manifest` calls the loop issued: one `(path, basename, keys)` entry
per processed candidate. -/
structure KeyLoopOut where
  fs : FS
  depots : List DK
  filesFlag : Bool
  keyOk : Bool
  trace : List (String × String × List DK)

/-- The `for actual_key_file_path in prioritized_key_files` loop: process a
candidate, merge freshly extracted keys with dedup, set both success flags,
and break as soon as a file named `key.vdf` yielded at least one key. -/
def strictKeyLoop (env : Env) (repo dir : String) :
    List (String × String) → FS → List DK → Bool → Bool → KeyLoopOut
  | [], fs, dep, f1, f2 => ⟨fs, dep, f1, f2, []⟩
  | e :: rest, fs, dep, f1, f2 =>
    if env.cancel then ⟨fs, dep, f1, f2, []⟩
    else
      let r := getManifest env repo e.1 dir fs
      if r.2.isEmpty then
        let o := strictKeyLoop env repo dir rest r.1 dep f1 f2
        { o with trace := (e.1, e.2, r.2) :: o.trace }
      else
        if e.2 == keyVdfName then ⟨r.1, addAll dep r.2, true, true, [(e.1, e.2, r.2)]⟩
        else
          let o := strictKeyLoop env repo dir rest r.1 (addAll dep r.2) true true
          { o with trace := (e.1, e.2, r.2) :: o.trace }

/-- Strict-mode manifest pass (app.py 2372-2394): fetch every blob whose
path ends in `.manifest` and record whether the file now exists on disk. -/
def manifestLoop (env : Env) (repo dir : String) : List TreeItem → FS → Bool → FS × Bool
  | [], fs, flag => (fs, flag)
  | it :: rest, fs, flag =>
    if env.cancel then (fs, flag)
    else if it.isBlob && endsWithS (toLowerS it.path) manifestExtS then
      let r := getManifest env repo it.path dir fs
      manifestLoop env repo dir rest r.1 (flag || fsHas r.1 (pjoin dir it.path))
    else manifestLoop env repo dir rest fs flag

/-- Non-strict pass (app.py 2395-2434): fetch every blob, opportunistically
collecting keys, and record whether any file exists on disk afterwards. -/
def permissiveLoop (env : Env) (repo dir : String) :
    List TreeItem → FS → List DK → Bool → FS × List DK × Bool
  | [], fs, dep, flag => (fs, dep, flag)
  | it :: rest, fs, dep, flag =>
    if env.cancel then (fs, dep, flag)
    else if it.isBlob then
      let r := getManifest env repo it.path dir fs
      permissiveLoop env repo dir rest r.1 (addAll dep r.2) (flag || fsHas r.1 (pjoin dir it.path))
    else permissiveLoop env repo dir rest fs dep flag

/-! ### The repository failover loop (app.py 2046-2523) -/

/-- Return value of `_perform_download_operations`:
`(collected_depots, output_path_or_processing_dir, source_was_branch)`,
extended with the resulting disk state and a ghost field naming the
repository whose iteration produced the outcome. -/
structure Outcome where
  depots : List DK
  outputPath : Option String
  sourceWasBranch : Bool
  fs : FS
  source : Option String

/-- `_{stem}_temp`, the name of the processing directory — note that it
depends only on the AppID and game name, not on the repository. -/
def tempDirName (stem : String) : String := underscoreS ++ stem ++ tempTailS

/-- One Branch-repository iteration (app.py 2098-2158): `some outcome` when
the run short-circuits (archive already on disk, or fetched and saved),
`none` when the fetch failed and the loop advances. -/
def procBranchRepo (env : Env) (repo zp : String) (fs : FS) : Option Outcome :=
  if fsHas fs zp then some ⟨[], some zp, true, fs, some repo⟩
  else
    match env.zipContent repo with
    | some c =>
      if c.isEmpty then none
      else some ⟨[], some zp, true, fsInsert fs zp c, some repo⟩
    | none => none

/-- Strict-mode result of one KeySource repository: the state after the key
pass and manifest pass, the repository-scoped key list, and the strict
success criterion `bool(repo_specific_collected_depots) and
files_downloaded_or_processed_this_repo`. -/
def strictRepoRes (env : Env) (repo dir : String) (ko : KeyLoopOut) : FS × List DK × Bool :=
  ((manifestLoop env repo dir (env.treeItems repo) ko.fs ko.filesFlag).1,
   ko.depots,
   !(ko.depots.isEmpty) && (manifestLoop env repo dir (env.treeItems repo) ko.fs ko.filesFlag).2)

/-- One KeySource repository iteration (app.py 2160-2485): resolve the
branch and tree, then run the mode's passes; returns the new state, the
repo-scoped keys, and whether the attempt counts as successful. -/
def procKeyRepo (env : Env) (repo dir : String) (fs : FS) : FS × List DK × Bool :=
  if !(env.branchResolves repo) then (fs, [], false)
  else if !(env.treeOk repo) then (fs, [], false)
  else if (env.treeItems repo).isEmpty then (fs, [], false)
  else if env.strict then
    strictRepoRes env repo dir
      (strictKeyLoop env repo dir (prioritizedKeyFiles (env.treeItems repo)) fs [] false false)
  else permissiveLoop env repo dir (env.treeItems repo) fs [] false

/-- The `for repo_full_name in selected_repos` loop.  Branch repositories
short-circuit with the saved (or pre-existing) archive; KeySource
repositories resolve, run the mode-specific passes, and short-circuit on the
mode's success criterion, leaving any files written by failed attempts in
the shared processing directory. -/
def procRepos (env : Env) (stem outBase : String) : List String → FS → List DK → Outcome
  | [], fs, acc => ⟨acc, none, false, fs, none⟩
  | repo :: rest, fs, acc =>
    if env.cancel then ⟨acc, none, false, fs, none⟩
    else
      match lookupRT env.repos repo with
      | none => procRepos env stem outBase rest fs acc
      | some RepoType.Branch =>
        match procBranchRepo env repo (pjoin outBase (stem ++ zipExtS)) fs with
        | some o => o
        | none => procRepos env stem outBase rest fs acc
      | some _ =>
        match procKeyRepo env repo (pjoin outBase (tempDirName stem)) fs with
        | (fs2, dep, success) =>
          if success then
            ⟨addAll acc dep, some (pjoin outBase (tempDirName stem)), false, fs2, some repo⟩
          else procRepos env stem outBase rest fs2 acc

/-- ASCII whitespace for Python `str.strip`. -/
def isSpaceC (c : Char) : Bool :=
  c.toNat == 32 || c.toNat == 9 || c.toNat == 10 || c.toNat == 13 || c.toNat == 11 || c.toNat == 12

def trimS (s : String) : String :=
  String.mk (((s.data.dropWhile isSpaceC).reverse.dropWhile isSpaceC).reverse)

/-- Characters kept by the game-name sanitizer (app.py 2059-2062). -/
def keepNameChar (c : Char) : Bool := c.isAlphanum || c == ' ' || c == '-' || c == '_'

def sanitizeName (g : String) : String := trimS (String.mk (g.data.filter keepNameChar))

def sepDashS : String := " - "

def appIdPrefS : String := "AppID_"

/-- `final_output_name_stem = f"{sanitized_game_name} - {app_id}"`. -/
def stemOf (appId gameName : String) : String :=
  let s := sanitizeName gameName
  (if s.data.isEmpty then appIdPrefS ++ appId else s) ++ sepDashS ++ appId

/-- `_perform_download_operations`: validate the AppID (leading digits),
compute the stem, and run the repository failover loop. -/
def performDownload (env : Env) (selected : List String)
    (appIdInput gameName outBase : String) (fs : FS) : Outcome :=
  if (appIdInput.data.takeWhile Char.isDigit).isEmpty then ⟨[], none, false, fs, none⟩
  else
    procRepos env (stemOf (String.mk (appIdInput.data.takeWhile Char.isDigit)) gameName)
      outBase selected fs []

/-! ### Packaging (`zip_outcome`, app.py 2603-2718) -/

/-- Strict-mode exclusion test on one archive entry: the walk file name,
lower-cased, equals `key.vdf` or `config.vdf`. -/
def isExcludedName (rel : String) : Bool :=
  let bnl := toLowerS (basenameOf rel)
  bnl == keyVdfName || bnl == configVdfName

/-- The names written into the archive: every file under the processing
directory, relative to it, minus the strict-mode key-file exclusions. -/
def zipEntries (fs : FS) (dir : String) (strict : Bool) : List String :=
  (relFilesUnder fs dir).filter (fun rel => !(strict && isExcludedName rel))

/-- A deterministic encoding of the written archive (entry names plus the
packed file contents). -/
def zipBlob (fs : FS) (dir : String) (strict : Bool) : Bytes :=
  (zipEntries fs dir strict).flatMap
    (fun rel => rel.data.map Char.toNat ++ (fsLookup fs (pjoin dir rel)).getD [])

/-- `base_name_from_dir[1:-5]` when shaped like `_..._temp`. -/
def stripTempName (b : String) : String :=
  if startsWithS b underscoreS && endsWithS b tempTailS then
    String.mk (((b.data.drop 1).reverse.drop 5).reverse)
  else b

/-- `is_encrypted_source`: whether ANY repository in
`selected_repos_for_zip` has display category "Encrypted" (app.py 2614-2617). -/
def isEncryptedSource (selected : List String) (repos : List (String × RepoType)) : Bool :=
  selected.any (fun r => decide (lookupRT repos r = some RepoType.Encrypted))

def zipSuffixOf (selected : List String) (repos : List (String × RepoType)) : String :=
  if isEncryptedSource selected repos then encZipExtS else zipExtS

/-- The final archive file name (app.py 2620-2630). -/
def zipNameOf (dir : String) (selected : List String) (repos : List (String × RepoType)) : String :=
  stripTempName (basenameOf dir) ++ zipSuffixOf selected repos

/-- Result of `zip_outcome`: the new disk state, the returned path (`None`
on failure), and the list of entry names written into the archive. -/
structure ZipRes where
  fs : FS
  path : Option String
  entries : List String

/-- `final_zip_path` of `zip_outcome`. -/
def zipPathOf (dir : String) (selected : List String)
    (repos : List (String × RepoType)) : String :=
  pjoin (dirnameOf dir) (zipNameOf dir selected repos)

/-- The archive-writing tail of `zip_outcome`, starting from the state
`fs1` in which a pre-existing archive has already been removed: on a raised
write error return `None` (possibly leaving a junk file at the archive
path, the processing directory untouched); on success write the archive,
then recursively delete the processing directory unless that deletion
itself raises. -/
def zipWrite (fs1 : FS) (dir : String) (selected : List String)
    (repos : List (String × RepoType)) (strict : Bool)
    (zipFail rmFail : Bool) (junkB : Option Bytes) : ZipRes :=
  if zipFail then
    ⟨(match junkB with
      | some b => fsInsert fs1 (zipPathOf dir selected repos) b
      | none => fs1), none, []⟩
  else
    ⟨(if rmFail then fsInsert fs1 (zipPathOf dir selected repos) (zipBlob fs1 dir strict)
      else (fsInsert fs1 (zipPathOf dir selected repos)
          (zipBlob fs1 dir strict)).filter (fun e => !(underDirB e.1 dir))),
      some (zipPathOf dir selected repos), zipEntries fs1 dir strict⟩

/-- `zip_outcome`.  Fault switches model the I/O failure points of the
source: `dirOk` is `os.path.isdir(processing_dir)`, `removeFail` makes the
deletion of a pre-existing archive raise (early `None` return), `zipFail`
makes archive creation raise, and `rmFail` makes the final `shutil.rmtree`
raise (the path is still returned). -/
def zipOutcome (fs : FS) (dir : String) (selected : List String)
    (repos : List (String × RepoType)) (strict : Bool)
    (dirOk zipFail rmFail removeFail : Bool) (junkB : Option Bytes) : ZipRes :=
  if !dirOk then ⟨fs, none, []⟩
  else if fsHas fs (zipPathOf dir selected repos) && removeFail then ⟨fs, none, []⟩
  else
    zipWrite
      (if fsHas fs (zipPathOf dir selected repos)
        then fsRemove fs (zipPathOf dir selected repos) else fs)
      dir selected repos strict zipFail rmFail junkB

/-! ### Unlock-script generation (`parse_vdf_to_lua`, app.py 2525-2601) -/

/-- `name_no_suffix = filename.rsplit(".manifest", 1)[0]`: the part before
the last occurrence of the pattern, or the whole name if absent. -/
def lastOcc (pat : List Char) : List Char → Option (List Char)
  | [] => none
  | c :: rest =>
    match lastOcc pat rest with
    | some pre => some (c :: pre)
    | none => if pat.isPrefixOf (c :: rest) then some [] else none

def rsplitManifestStem (fname : String) : String :=
  match lastOcc manifestExtS.data fname.data with
  | some pre => String.mk pre
  | none => fname

/-- `name_no_suffix.split("_", 1)`. -/
def splitFirstUS : List Char → List Char × Option (List Char)
  | [] => ([], none)
  | c :: rest =>
    if c == '_' then ([], some rest)
    else
      let r := splitFirstUS rest
      (c :: r.1, r.2)

/-- `(depot_id_str, manifest_gid_val)` parsed from a manifest file path. -/
def manifestDepotGid (fpath : String) : String × String :=
  let r := splitFirstUS (rsplitManifestStem (basenameOf fpath)).data
  (String.mk r.1, String.mk (r.2.getD []))

/-- Python `str.isdigit` (ASCII digits). -/
def isDigitStrS (s : String) : Bool := !s.data.isEmpty && s.data.all Char.isDigit

def digitsToNat (l : List Char) : Nat := l.foldl (fun n c => n * 10 + (c.toNat - 48)) 0

/-- `depot_id_int` of `sort_key_manifest`: the numeric prefix, `0` if not
all digits. -/
def depotIntOf (s : String) : Nat := if isDigitStrS s then digitsToNat s.data else 0

/-- `sort_key_manifest`: `(depot_id_int, manifest_gid_val)`. -/
def kManifest (p : String) : Nat × List Char :=
  let dg := manifestDepotGid p
  (depotIntOf dg.1, dg.2.data)

def rManifest (a b : String) : Prop := pairLeB kManifest a b = true

instance : DecidableRel rManifest := fun _ _ => inferInstanceAs (Decidable (_ = true))

def addAppLine (i : String) : String := "addappid(" ++ i ++ ")"

def keyLine (dk : DK) : String := "addappid(" ++ dk.1 ++ ",1,\"" ++ dk.2 ++ "\")"

def setManifestLine (d g : String) : String := "setManifestid(" ++ d ++ ",\"" ++ g ++ "\",0)"

/-- The manifest scan of `parse_vdf_to_lua`: for each sorted manifest file
with a numeric depot prefix, register the depot unless already registered,
then emit `setManifestid` when a GID suffix is present. -/
def manifestLines : List String → List String → List String
  | [], _ => []
  | p :: rest, reg =>
    let dg := manifestDepotGid p
    if isDigitStrS dg.1 then
      let pre := if reg.contains dg.1 then ([] : List String) else [addAppLine dg.1]
      let reg1 := if reg.contains dg.1 then reg else dg.1 :: reg
      let setl := if dg.2.data.isEmpty then ([] : List String) else [setManifestLine dg.1 dg.2]
      pre ++ setl ++ manifestLines rest reg1
    else manifestLines rest reg

/-- All lines of the generated unlock script, in emission order. -/
def luaLinesOf (appid : String) (depots : List DK) (fs : FS) (dir : String) : List String :=
  let mfiles := (filesUnder fs dir).filter
    (fun p => endsWithS (toLowerS (basenameOf p)) manifestExtS)
  let sorted := List.insertionSort rManifest mfiles
  addAppLine appid :: (depots.map keyLine ++ manifestLines sorted (depots.map Prod.fst))

def joinSep (sep : List Char) : List (List Char) → List Char
  | [] => []
  | [x] => x
  | x :: xs => x ++ sep ++ joinSep sep xs

def luaScript (appid : String) (depots : List DK) (fs : FS) (dir : String) : String :=
  String.mk (joinSep newlineS.data ((luaLinesOf appid depots fs dir).map String.data))

def strBytes (s : String) : Bytes := s.data.map Char.toNat

/-! ### Per-AppID batch step (`run_batch_download`, app.py 1584-1722) -/

/-- What `run_batch_download` does with one `_perform_download_operations`
result: for a Branch outcome the saved archive already is the final
artifact; otherwise the unlock script is written into the processing
directory and `zip_outcome` packages it. -/
def postProcess (env : Env) (selected : List String) (appIdInput : String)
    (dirOk zipFail rmFail removeFail : Bool) (junkB : Option Bytes) (o : Outcome) : ZipRes :=
  if env.cancel then ⟨o.fs, none, []⟩
  else if o.sourceWasBranch then ⟨o.fs, o.outputPath, []⟩
  else
    match o.outputPath with
    | none => ⟨o.fs, none, []⟩
    | some dir =>
      let fs1 := fsInsert o.fs (pjoin dir (appIdInput ++ luaExtS))
        (strBytes (luaScript appIdInput o.depots o.fs dir))
      zipOutcome fs1 dir selected env.repos env.strict dirOk zipFail rmFail removeFail junkB

def batchStep (env : Env) (selected : List String) (appIdInput gameName outBase : String)
    (dirOk zipFail rmFail removeFail : Bool) (junkB : Option Bytes) (fs : FS) : ZipRes :=
  postProcess env selected appIdInput dirOk zipFail rmFail removeFail junkB
    (performDownload env selected appIdInput gameName outBase fs)

/-! ### The mirror fetcher (`get`, app.py 1735-1838) -/

def rawHostS : String := "raw.githubusercontent.com"

/-- Python `pat in s` (substring containment). -/
def containsSeq (pat : List Char) : List Char → Bool
  | [] => pat.isEmpty
  | c :: rest => pat.isPrefixOf (c :: rest) || containsSeq pat rest

/-- The ordered mirror URL templates of `get` (app.py 1736-1743). -/
def urlList (repo sha path : String) : List String :=
  [ "https://gcore.jsdelivr.net/gh/" ++ repo ++ "@" ++ sha ++ "/" ++ path,
    "https://fastly.jsdelivr.net/gh/" ++ repo ++ "@" ++ sha ++ "/" ++ path,
    "https://cdn.jsdelivr.net/gh/" ++ repo ++ "@" ++ sha ++ "/" ++ path,
    "https://ghproxy.org/https://raw.githubusercontent.com/" ++ repo ++ "/" ++ sha ++ "/" ++ path,
    "https://raw.dgithub.xyz/" ++ repo ++ "/" ++ sha ++ "/" ++ path,
    "https://raw.githubusercontent.com/" ++ repo ++ "/" ++ sha ++ "/" ++ path ]

/-- Whether the request for `url` carries the `Authorization` header: a
token is configured and `"raw.githubusercontent.com" in url` (app.py 1761-1768). -/
def authAttached (tokenConfigured : Bool) (url : String) : Bool :=
  tokenConfigured && containsSeq rawHostS.data url.data

/-- One mirror response: success body, authoritative 404, or a transient
error / non-success status. -/
inductive MirrorResp
  | ok (b : Bytes)
  | notFound
  | transientErr
deriving DecidableEq

/-- Up to `max_retries_per_url + 1 = 2` attempts on one mirror: a 404
short-circuits that mirror, a transient error is retried once.  Returns the
body and the number of network attempts made. -/
def tryUrlTwice (r0 r1 : MirrorResp) : Option Bytes × Nat :=
  match r0 with
  | MirrorResp.ok b => (some b, 1)
  | MirrorResp.notFound => (none, 1)
  | MirrorResp.transientErr =>
    match r1 with
    | MirrorResp.ok b => (some b, 2)
    | _ => (none, 2)

/-- One outer cycle over the six mirrors, threading the attempt count. -/
def runUrlCycle (resp : Nat → Nat → Nat → MirrorResp) (cycle : Nat) :
    List Nat → Nat → Option Bytes × Nat
  | [], n => (none, n)
  | i :: rest, n =>
    match tryUrlTwice (resp cycle i 0) (resp cycle i 1) with
    | (some b, k) => (some b, n + k)
    | (none, k) => runUrlCycle resp cycle rest (n + k)

/-- `get`: check the cancellation flag, then run `overall_attempts = 2`
cycles over the mirror list.  `resp cycle urlIdx retry` is the network
oracle; the second component counts network attempts actually made. -/
def getFetch (cancel : Bool) (resp : Nat → Nat → Nat → MirrorResp) : Option Bytes × Nat :=
  if cancel then (none, 0)
  else
    match runUrlCycle resp 0 [0, 1, 2, 3, 4, 5] 0 with
    | (some b, n) => (some b, n)
    | (none, n) => runUrlCycle resp 1 [0, 1, 2, 3, 4, 5] n

/-! ### Concrete scenario environments -/

/-- Failover scenario of C1: `A` fails branch resolution, `B` resolves but
its tree has no key file (zero keys in strict mode), `C` resolves with a
`Key.vdf` yielding two keys plus one manifest. -/
def envC1 : Env where
  repos := [("A", RepoType.Decrypted), ("B", RepoType.Decrypted), ("C", RepoType.Decrypted)]
  strict := true
  cancel := false
  branchResolves := fun r => r == "B" || r == "C"
  treeOk := fun _ => true
  treeItems := fun r =>
    if r == "B" then [⟨"10_1.manifest", true⟩]
    else if r == "C" then [⟨"Key.vdf", true⟩, ⟨"20_2.manifest", true⟩]
    else []
  fileContent := fun r p =>
    if r == "B" && p == "10_1.manifest" then some [1]
    else if r == "C" && p == "Key.vdf" then some [7]
    else if r == "C" && p == "20_2.manifest" then some [9]
    else none
  zipContent := fun _ => none
  parseDepots := fun b => if b == [7] then [("20", "K0"), ("21", "K1")] else []

def selC1 : List String := ["A", "B", "C"]

/-- C1: counterexample.  In the strict-mode failover scenario
`[A fails resolution, B resolves with zero keys, C resolves with two keys]`
the outcome is indeed sourced from `C`, but `B`'s partial download
(`10_1.manifest`) is NOT left in a `B`-specific processing directory
untouched by `C`'s run: it ends up as an entry of `C`'s final archive,
because all repositories share the single per-AppID processing directory. -/
theorem C1_counterexample :
    (performDownload envC1 selC1 ("1") ("G") ("out") []).source = some ("C" : String) ∧
    (("10_1.manifest" : String)
        ∈ (batchStep envC1 selC1 ("1") ("G") ("out") true false false false none []).entries) := by
  decide

/-- C1 (amended): in the failover scenario the outcome is sourced from `C`
with `C`'s two keys, but the processing directory is shared across the
repositories of one AppID: `B`'s partial file stays in that shared
directory during `C`'s run and is packaged into `C`'s final archive. -/
theorem C1_amended_shared_dir :
    (performDownload envC1 selC1 ("1") ("G") ("out") []).source = some ("C" : String) ∧
    (performDownload envC1 selC1 ("1") ("G") ("out") []).depots
      = [("20", "K0"), ("21", "K1")] ∧
    (performDownload envC1 selC1 ("1") ("G") ("out") []).outputPath
      = some ("out/_G - 1_temp") ∧
    (("out/_G - 1_temp/10_1.manifest" : String)
        ∈ (performDownload envC1 selC1 ("1") ("G") ("out") []).fs.map Prod.fst) ∧
    (("10_1.manifest" : String)
        ∈ (batchStep envC1 selC1 ("1") ("G") ("out") true false false false none []).entries) := by
  decide

/-- C2: counterexample.  The fetch operation does not return a cancelled
result distinguishable from the not-found result: with the cancellation
flag set it returns exactly the same value (`None`) that an uncancelled run
returns after exhausting every mirror — even when the mirrors would have
served the file. -/
theorem C2_counterexample :
    (getFetch true (fun _ _ _ => MirrorResp.ok [1])).1
      = (getFetch false (fun _ _ _ => MirrorResp.notFound)).1 := by
  decide

/-- C2 (amended): when the cancellation flag is observed set, `get` returns
immediately — zero network attempts — with `None`, and the per-AppID
repository loop returns immediately with `(depots, None, False)` and an
unchanged disk state; but these are the very same values produced by the
all-sources-exhausted failure, so the caller distinguishes cancellation by
consulting the shared flag, not the returned value. -/
theorem C2_amended_cancel (resp : Nat → Nat → Nat → MirrorResp) (env : Env)
    (stem outBase : String) (selected : List String) (fs : FS) (acc : List DK)
    (hc : env.cancel = true) :
    getFetch true resp = (none, 0) ∧
    procRepos env stem outBase selected fs acc = ⟨acc, none, false, fs, none⟩ := by
  constructor
  · rfl
  · cases selected with
    | nil => rfl
    | cons r rest => simp [procRepos, hc]

/-- Witness for C2 (amended) at a concrete cancelled environment. -/
theorem C2_witness :
    getFetch true (fun _ _ _ => MirrorResp.notFound) = (none, 0) ∧
    procRepos { envC1 with cancel := true } ("G - 1") ("out") ["A"] [] []
      = ⟨[], none, false, [], none⟩ :=
  C2_amended_cancel _ _ _ _ _ _ _ rfl

/-- C3: evaluation of the header predicate at the failing input.  With a
bearer token configured, the `Authorization` header is attached not only to
the origin raw-file service (index 5) but also to the `ghproxy.org` CDN
front-end (index 3), because that mirror's URL embeds the origin URL and
the code tests `"raw.githubusercontent.com" in url` by substring. -/
theorem C3_token_leak :
    (urlList ("owner/repo") ("abc123") ("depots/key.vdf")).map (authAttached true)
      = [false, false, false, true, false, true] := by
  decide

def dirC9 : String := "out/_G - 1_temp"

/-- Processing directory of the C9 scenario: manifests `100_555.manifest`
and `102_777.manifest` on disk (walk order deliberately unsorted). -/
def fsC9 : FS :=
  [ (pjoin dirC9 ("102_777.manifest"), [2]),
    (pjoin dirC9 ("100_555.manifest"), [1]) ]

/-- C9: script generation for collected depots
`[("100","AAA"), ("101","BBB")]` and on-disk manifests `100_555.manifest`,
`102_777.manifest` emits, in order: the top-level AppID registration, one
keyed registration per collected depot in list order, then — scanning the
manifests sorted by (numeric depot prefix, GID suffix) — depot `100`'s
manifest-id directive without a duplicate registration, and depot `102`'s
registration (no key) followed by its manifest-id directive. -/
theorem C9_script_scenario :
    luaLinesOf ("1") [("100", "AAA"), ("101", "BBB")] fsC9 dirC9
      = [ "addappid(1)",
          "addappid(100,1,\"AAA\")",
          "addappid(101,1,\"BBB\")",
          "setManifestid(100,\"555\",0)",
          "addappid(102)",
          "setManifestid(102,\"777\",0)" ] := by
  decide

/-- C6: the final archive's contents depend on the mode.  In strict mode no
entry of the archive has basename `key.vdf` or `config.vdf` in any casing
(even when such files are on disk in the processing directory); in
permissive mode every file fetched into the processing directory, key files
included, becomes an entry. -/
theorem C6_archive_contents (fs : FS) (dir : String) :
    (∀ rel ∈ zipEntries fs dir true,
        toLowerS (basenameOf rel) ≠ keyVdfName ∧ toLowerS (basenameOf rel) ≠ configVdfName)
    ∧ zipEntries fs dir false = relFilesUnder fs dir := by
  constructor
  · intro rel hrel
    have h := (List.mem_filter.mp hrel).2
    simp only [isExcludedName, Bool.true_and, Bool.not_eq_eq_eq_not, Bool.not_true,
      Bool.or_eq_false_iff, beq_eq_false_iff_ne, ne_eq] at h
    exact h
  · simp [zipEntries]

/-- Witness for C6 at a concrete processing directory holding `KEY.VDF`,
`a/Config.vdf` and a manifest. -/
def fsC6 : FS :=
  [ (pjoin dirC9 ("KEY.VDF"), [1]),
    (pjoin dirC9 ("a/Config.vdf"), [2]),
    (pjoin dirC9 ("5_6.manifest"), [3]) ]

theorem C6_witness :
    (toLowerS (basenameOf ("5_6.manifest")) ≠ keyVdfName ∧
      toLowerS (basenameOf ("5_6.manifest")) ≠ configVdfName) ∧
    zipEntries fsC6 dirC9 false = relFilesUnder fsC6 dirC9 :=
  ⟨(C6_archive_contents fsC6 dirC9).1 ("5_6.manifest") (by decide),
    (C6_archive_contents fsC6 dirC9).2⟩

/-- Failover scenario of C4: the selected Encrypted repository `A` fails
branch resolution, the Decrypted repository `B` succeeds (permissive mode). -/
def envC4 : Env where
  repos := [("A", RepoType.Encrypted), ("B", RepoType.Decrypted)]
  strict := false
  cancel := false
  branchResolves := fun r => r == "B"
  treeOk := fun _ => true
  treeItems := fun r => if r == "B" then [⟨"5_9.manifest", true⟩] else []
  fileContent := fun r p => if r == "B" && p == "5_9.manifest" then some [3] else none
  zipContent := fun _ => none
  parseDepots := fun _ => []

def selC4 : List String := ["A", "B"]

/-- C4: counterexample.  The outcome is sourced from the Decrypted
repository `B` (the Encrypted `A` contributed nothing), yet the final
archive still carries the `" - encrypted"` suffix, because the suffix is
chosen from the whole selected-repository list, not from the repository
that sourced the outcome. -/
theorem C4_counterexample :
    (performDownload envC4 selC4 ("1") ("G") ("out") []).source = some ("B" : String) ∧
    lookupRT envC4.repos ("B") = some RepoType.Decrypted ∧
    (batchStep envC4 selC4 ("1") ("G") ("out") true false false false none []).path
      = some ("out/G - 1 - encrypted.zip") := by
  decide

/-- C4 (amended): the archive name carries the `" - encrypted"` suffix if
and only if SOME repository of the selected list passed to packaging is of
the "Encrypted" display category — regardless of which repository actually
sourced the outcome. -/
theorem C4_amended_selected_encrypted (selected : List String)
    (repos : List (String × RepoType)) :
    zipSuffixOf selected repos = encZipExtS
      ↔ ∃ r ∈ selected, lookupRT repos r = some RepoType.Encrypted := by
  have hiff : isEncryptedSource selected repos = true
      ↔ ∃ r ∈ selected, lookupRT repos r = some RepoType.Encrypted := by
    simp [isEncryptedSource, List.any_eq_true]
  constructor
  · intro hs
    by_cases h : isEncryptedSource selected repos = true
    · exact hiff.mp h
    · rw [zipSuffixOf, if_neg h] at hs
      exact absurd hs (by decide)
  · intro hex
    rw [zipSuffixOf, if_pos (hiff.mpr hex)]

/-- Witness for C4 (amended): the selected list of the C4 scenario contains
the Encrypted repository `A`, so the suffix is chosen. -/
theorem C4_witness : zipSuffixOf selC4 envC4.repos = encZipExtS :=
  (C4_amended_selected_encrypted selC4 envC4.repos).mpr ⟨"A", by decide, by decide⟩

/-! ### Order properties of the strict-mode key-file sort (for C5) -/

theorem lexLeB_total : ∀ a b : List Char, lexLeB a b = true ∨ lexLeB b a = true := by
  intro a
  induction a with
  | nil => intro b; exact Or.inl rfl
  | cons x xs ih =>
    intro b
    cases b with
    | nil => exact Or.inr rfl
    | cons y ys =>
      simp only [lexLeB]
      by_cases h1 : x.toNat < y.toNat
      · exact Or.inl (by rw [if_pos h1])
      · by_cases h2 : y.toNat < x.toNat
        · exact Or.inr (by rw [if_pos h2])
        · rcases ih ys with h | h
          · exact Or.inl (by rw [if_neg h1, if_neg h2]; exact h)
          · exact Or.inr (by rw [if_neg h2, if_neg h1]; exact h)

theorem lexLeB_trans :
    ∀ a b c : List Char, lexLeB a b = true → lexLeB b c = true → lexLeB a c = true := by
  intro a
  induction a with
  | nil => intro b c _ _; rfl
  | cons x xs ih =>
    intro b c hab hbc
    cases b with
    | nil => exact absurd hab (by simp [lexLeB])
    | cons y ys =>
      cases c with
      | nil => exact absurd hbc (by simp [lexLeB])
      | cons z zs =>
        simp only [lexLeB] at hab hbc ⊢
        by_cases h1 : x.toNat < y.toNat
        · by_cases h2 : y.toNat < z.toNat
          · rw [if_pos (by omega)]
          · rw [if_neg h2] at hbc
            by_cases h2' : z.toNat < y.toNat
            · rw [if_pos h2'] at hbc; exact absurd hbc (by simp)
            · rw [if_pos (by omega)]
        · rw [if_neg h1] at hab
          by_cases h1' : y.toNat < x.toNat
          · rw [if_pos h1'] at hab; exact absurd hab (by simp)
          · rw [if_neg h1'] at hab
            by_cases h2 : y.toNat < z.toNat
            · rw [if_pos (by omega)]
            · rw [if_neg h2] at hbc
              by_cases h2' : z.toNat < y.toNat
              · rw [if_pos h2'] at hbc; exact absurd hbc (by simp)
              · rw [if_neg h2'] at hbc
                rw [if_neg (by omega), if_neg (by omega)]
                exact ih ys zs hab hbc

theorem pairLeB_total {α : Type} (k : α → Nat × List Char) (a b : α) :
    pairLeB k a b = true ∨ pairLeB k b a = true := by
  unfold pairLeB
  by_cases h1 : (k a).1 < (k b).1
  · exact Or.inl (by rw [if_pos h1])
  · by_cases h2 : (k b).1 < (k a).1
    · exact Or.inr (by rw [if_pos h2])
    · rcases lexLeB_total (k a).2 (k b).2 with h | h
      · exact Or.inl (by rw [if_neg h1, if_neg h2]; exact h)
      · exact Or.inr (by rw [if_neg h2, if_neg h1]; exact h)

theorem pairLeB_trans {α : Type} (k : α → Nat × List Char) (a b c : α)
    (hab : pairLeB k a b = true) (hbc : pairLeB k b c = true) : pairLeB k a c = true := by
  unfold pairLeB at hab hbc ⊢
  by_cases h1 : (k a).1 < (k b).1
  · by_cases h2 : (k b).1 < (k c).1
    · rw [if_pos (by omega)]
    · rw [if_neg h2] at hbc
      by_cases h2' : (k c).1 < (k b).1
      · rw [if_pos h2'] at hbc; exact absurd hbc (by simp)
      · rw [if_pos (by omega)]
  · rw [if_neg h1] at hab
    by_cases h1' : (k b).1 < (k a).1
    · rw [if_pos h1'] at hab; exact absurd hab (by simp)
    · rw [if_neg h1'] at hab
      by_cases h2 : (k b).1 < (k c).1
      · rw [if_pos (by omega)]
      · rw [if_neg h2] at hbc
        by_cases h2' : (k c).1 < (k b).1
        · rw [if_pos h2'] at hbc; exact absurd hbc (by simp)
        · rw [if_neg h2'] at hbc
          rw [if_neg (by omega), if_neg (by omega)]
          exact lexLeB_trans _ _ _ hab hbc

instance : IsTotal (String × String) rPrio := ⟨fun a b => pairLeB_total kPrio a b⟩

instance : IsTrans (String × String) rPrio := ⟨fun a b c => pairLeB_trans kPrio a b c⟩

theorem mem_dedupFst (l : List (String × String)) :
    ∀ seen e, e ∈ dedupFst l seen → e ∈ l := by
  induction l with
  | nil => intro seen e h; exact absurd h (List.not_mem_nil e)
  | cons a l ih =>
    intro seen e h
    rw [dedupFst] at h
    by_cases ha : seen.contains a.1 = true
    · rw [if_pos ha] at h
      exact List.mem_cons_of_mem _ (ih seen e h)
    · rw [if_neg ha] at h
      rcases List.mem_cons.mp h with rfl | h'
      · exact List.mem_cons_self _ _
      · exact List.mem_cons_of_mem _ (ih _ e h')

/-- Every key-file candidate's recorded basename is `key.vdf` or `config.vdf`. -/
theorem keyFilePairsRaw_names (items : List TreeItem) :
    ∀ e ∈ keyFilePairsRaw items, e.2 = keyVdfName ∨ e.2 = configVdfName := by
  intro e he
  simp only [keyFilePairsRaw, List.mem_filterMap] at he
  rcases he with ⟨it, -, hit⟩
  by_cases hb : it.isBlob = true
  · rw [if_pos hb] at hit
    by_cases hcnd : (basenameOf (toLowerS it.path) == keyVdfName
        || basenameOf (toLowerS it.path) == configVdfName) = true
    · rw [if_pos hcnd] at hit
      have he2 : e.2 = basenameOf (toLowerS it.path) := by cases hit; rfl
      rcases (Bool.or_eq_true _ _).mp hcnd with h | h
      · exact Or.inl (he2.trans (eq_of_beq h))
      · exact Or.inr (he2.trans (eq_of_beq h))
    · rw [if_neg hcnd] at hit
      cases hit
  · rw [if_neg hb] at hit
    cases hit

theorem mem_prioritized (items : List TreeItem) (e : String × String) :
    e ∈ prioritizedKeyFiles items ↔ e ∈ keyFilePairs items :=
  (List.perm_insertionSort rPrio (keyFilePairs items)).mem_iff

/-- In the search order, a candidate listed after a `config.vdf` candidate
is itself a `config.vdf` candidate: `key.vdf` files come first. -/
def cfgImp (a b : String × String) : Prop :=
  a.2 = configVdfName → b.2 = configVdfName

theorem prioritized_keysFirst (items : List TreeItem) :
    (prioritizedKeyFiles items).Pairwise cfgImp := by
  have hs : List.Sorted rPrio (prioritizedKeyFiles items) :=
    List.sorted_insertionSort rPrio (keyFilePairs items)
  have hnames : ∀ e ∈ prioritizedKeyFiles items,
      e.2 = keyVdfName ∨ e.2 = configVdfName := by
    intro e he
    exact keyFilePairsRaw_names items e
      (mem_dedupFst _ [] e ((mem_prioritized items e).mp he))
  refine List.Pairwise.imp_of_mem ?_ hs
  intro a b ha hb hr hcfg
  rcases hnames b hb with h | h
  · exfalso
    have hra : prioRank a = 1 := by rw [prioRank, hcfg]; decide
    have hrb : prioRank b = 0 := by rw [prioRank, h]; decide
    have hfalse : pairLeB kPrio a b = false := by
      simp only [pairLeB, kPrio, hra, hrb]
      rw [if_neg (by omega), if_pos (by omega)]
    rw [rPrio] at hr
    rw [hfalse] at hr
    exact absurd hr (by simp)
  · exact h

/-! ### The strict-mode key loop never reaches `config.vdf` once a
`key.vdf` has yielded keys (C5) -/

theorem strictKeyLoop_trace_mem (env : Env) (repo dir : String) :
    ∀ (l : List (String × String)) (fs : FS) (dep : List DK) (f1 f2 : Bool),
      ∀ t ∈ (strictKeyLoop env repo dir l fs dep f1 f2).trace, (t.1, t.2.1) ∈ l := by
  intro l
  induction l with
  | nil => intro fs dep f1 f2 t ht; exact absurd ht (List.not_mem_nil t)
  | cons e rest ih =>
    intro fs dep f1 f2 t ht
    rw [strictKeyLoop] at ht
    by_cases hc : env.cancel = true
    · rw [if_pos hc] at ht
      exact absurd ht (List.not_mem_nil t)
    · rw [if_neg hc] at ht
      by_cases hemp : (getManifest env repo e.1 dir fs).2.isEmpty = true
      · rw [if_pos hemp] at ht
        dsimp only at ht
        rcases List.mem_cons.mp ht with rfl | ht'
        · exact List.mem_cons_self _ _
        · exact List.mem_cons_of_mem _ (ih _ _ _ _ t ht')
      · rw [if_neg hemp] at ht
        by_cases hk : (e.2 == keyVdfName) = true
        · rw [if_pos hk] at ht
          dsimp only at ht
          rcases List.mem_cons.mp ht with rfl | ht'
          · exact List.mem_cons_self _ _
          · exact absurd ht' (List.not_mem_nil t)
        · rw [if_neg hk] at ht
          dsimp only at ht
          rcases List.mem_cons.mp ht with rfl | ht'
          · exact List.mem_cons_self _ _
          · exact List.mem_cons_of_mem _ (ih _ _ _ _ t ht')

theorem strictKeyLoop_no_config (env : Env) (repo dir : String) :
    ∀ (l : List (String × String)) (fs : FS) (dep : List DK) (f1 f2 : Bool),
      l.Pairwise cfgImp →
      (∀ e ∈ l, e.2 = keyVdfName ∨ e.2 = configVdfName) →
      (∃ t ∈ (strictKeyLoop env repo dir l fs dep f1 f2).trace,
          t.2.1 = keyVdfName ∧ ¬ t.2.2 = []) →
      ∀ t ∈ (strictKeyLoop env repo dir l fs dep f1 f2).trace,
        ¬ t.2.1 = configVdfName := by
  intro l
  induction l with
  | nil => intro fs dep f1 f2 _ _ _ t ht; exact absurd ht (List.not_mem_nil t)
  | cons e rest ih =>
    intro fs dep f1 f2 hpw hnames hex t ht
    rw [strictKeyLoop] at hex ht
    by_cases hc : env.cancel = true
    · rw [if_pos hc] at ht
      exact absurd ht (List.not_mem_nil t)
    · rw [if_neg hc] at hex ht
      by_cases hemp : (getManifest env repo e.1 dir fs).2.isEmpty = true
      · rw [if_pos hemp] at hex ht
        dsimp only at hex ht
        rcases hex with ⟨t0, ht0, hkey0, hne0⟩
        rcases List.mem_cons.mp ht0 with rfl | ht0'
        · exact absurd (List.isEmpty_iff.mp hemp) hne0
        · have hex' : ∃ t1 ∈ (strictKeyLoop env repo dir rest
              (getManifest env repo e.1 dir fs).1 dep f1 f2).trace,
              t1.2.1 = keyVdfName ∧ ¬ t1.2.2 = [] := ⟨t0, ht0', hkey0, hne0⟩
          rcases List.mem_cons.mp ht with rfl | ht'
          · intro hcfg
            have hpair := strictKeyLoop_trace_mem env repo dir rest _ _ _ _ t0 ht0'
            have himp := (List.pairwise_cons.mp hpw).1 (t0.1, t0.2.1) hpair hcfg
            exact absurd (hkey0.symm.trans himp) (by decide)
          · exact ih _ _ _ _ hpw.of_cons
              (fun a ha => hnames a (List.mem_cons_of_mem _ ha)) hex' t ht'
      · rw [if_neg hemp] at hex ht
        by_cases hk : (e.2 == keyVdfName) = true
        · rw [if_pos hk] at hex ht
          dsimp only at hex ht
          rcases List.mem_cons.mp ht with rfl | ht'
          · intro hcfg
            exact absurd ((eq_of_beq hk).symm.trans hcfg) (by decide)
          · exact absurd ht' (List.not_mem_nil t)
        · rw [if_neg hk] at hex ht
          dsimp only at hex ht
          exfalso
          have hecfg : e.2 = configVdfName := by
            rcases hnames e (List.mem_cons_self _ _) with h | h
            · exact absurd (by rw [h]) (fun hh => hk (beq_iff_eq.mpr hh))
            · exact h
          rcases hex with ⟨t0, ht0, hkey0, hne0⟩
          rcases List.mem_cons.mp ht0 with rfl | ht0'
          · exact absurd (hkey0.symm.trans hecfg) (by decide)
          · have hpair := strictKeyLoop_trace_mem env repo dir rest _ _ _ _ t0 ht0'
            have himp := (List.pairwise_cons.mp hpw).1 (t0.1, t0.2.1) hpair hecfg
            exact absurd (hkey0.symm.trans himp) (by decide)

theorem strictKeyLoop_all_processed (env : Env) (repo dir : String)
    (hc : env.cancel = false) :
    ∀ (l : List (String × String)) (fs : FS) (dep : List DK) (f1 f2 : Bool),
      (∀ t ∈ (strictKeyLoop env repo dir l fs dep f1 f2).trace,
          t.2.1 = keyVdfName → t.2.2 = []) →
      ∀ e ∈ l,
        e.1 ∈ (strictKeyLoop env repo dir l fs dep f1 f2).trace.map (fun t => t.1) := by
  intro l
  induction l with
  | nil => intro fs dep f1 f2 _ e he; exact absurd he (List.not_mem_nil e)
  | cons a rest ih =>
    intro fs dep f1 f2 hall e he
    rw [strictKeyLoop] at hall ⊢
    rw [if_neg (by simp [hc])] at hall ⊢
    by_cases hemp : (getManifest env repo a.1 dir fs).2.isEmpty = true
    · rw [if_pos hemp] at hall ⊢
      dsimp only at hall ⊢
      rcases List.mem_cons.mp he with rfl | he'
      · exact List.mem_cons_self _ _
      · have hall' := fun t ht => hall t (List.mem_cons_of_mem _ ht)
        exact List.mem_cons_of_mem _ (ih _ _ _ _ hall' e he')
    · rw [if_neg hemp] at hall ⊢
      by_cases hk : (a.2 == keyVdfName) = true
      · rw [if_pos hk] at hall ⊢
        dsimp only at hall ⊢
        exfalso
        have h0 := hall (a.1, a.2, (getManifest env repo a.1 dir fs).2)
          (List.mem_cons_self _ _) (eq_of_beq hk)
        rw [← List.isEmpty_iff] at h0
        exact absurd h0 hemp
      · rw [if_neg hk] at hall ⊢
        dsimp only at hall ⊢
        rcases List.mem_cons.mp he with rfl | he'
        · exact List.mem_cons_self _ _
        · have hall' := fun t ht => hall t (List.mem_cons_of_mem _ ht)
          exact List.mem_cons_of_mem _ (ih _ _ _ _ hall' e he')

/-- C5: in the strict-mode key-file search over a resolved tree, if some
processed file named `key.vdf` yielded at least one decryption key, then no
file named `config.vdf` is ever processed (the search stops at `key.vdf`);
and if every processed `key.vdf` yielded no keys, then every `config.vdf`
candidate of the tree is also tried. -/
theorem C5_strict_key_priority (env : Env) (repo dir : String) (fs : FS)
    (hcancel : env.cancel = false) :
    ((∃ t ∈ (strictKeyLoop env repo dir (prioritizedKeyFiles (env.treeItems repo))
          fs [] false false).trace, t.2.1 = keyVdfName ∧ ¬ t.2.2 = []) →
      ∀ t ∈ (strictKeyLoop env repo dir (prioritizedKeyFiles (env.treeItems repo))
          fs [] false false).trace, ¬ t.2.1 = configVdfName)
    ∧ ((∀ t ∈ (strictKeyLoop env repo dir (prioritizedKeyFiles (env.treeItems repo))
          fs [] false false).trace, t.2.1 = keyVdfName → t.2.2 = []) →
      ∀ e ∈ prioritizedKeyFiles (env.treeItems repo), e.2 = configVdfName →
        e.1 ∈ (strictKeyLoop env repo dir (prioritizedKeyFiles (env.treeItems repo))
          fs [] false false).trace.map (fun t => t.1)) := by
  constructor
  · intro hex
    refine strictKeyLoop_no_config env repo dir _ fs [] false false
      (prioritized_keysFirst _) ?_ hex
    intro e he
    exact keyFilePairsRaw_names _ e
      (mem_dedupFst _ [] e ((mem_prioritized _ e).mp he))
  · intro hall e he _
    exact strictKeyLoop_all_processed env repo dir hcancel _ fs [] false false hall e he

/-- Environment of the C5 witness: the tree lists `config.vdf` before
`Key.vdf`, but `Key.vdf` parses to one key. -/
def envC5 : Env where
  repos := [("C", RepoType.Decrypted)]
  strict := true
  cancel := false
  branchResolves := fun _ => true
  treeOk := fun _ => true
  treeItems := fun _ => [⟨"config.vdf", true⟩, ⟨"Key.vdf", true⟩]
  fileContent := fun _ p =>
    if p == "Key.vdf" then some [7] else if p == "config.vdf" then some [8] else none
  zipContent := fun _ => none
  parseDepots := fun b => if b == [7] then [("20", "K0")] else []

/-- Witness for C5: in `envC5`, `Key.vdf` is processed first despite being
listed second, yields a key, and `config.vdf` is never processed. -/
theorem C5_witness :
    (∃ t ∈ (strictKeyLoop envC5 ("C") ("out/_G - 1_temp")
        (prioritizedKeyFiles (envC5.treeItems ("C"))) [] [] false false).trace,
        t.2.1 = keyVdfName ∧ ¬ t.2.2 = []) ∧
    (∀ t ∈ (strictKeyLoop envC5 ("C") ("out/_G - 1_temp")
        (prioritizedKeyFiles (envC5.treeItems ("C"))) [] [] false false).trace,
        ¬ t.2.1 = configVdfName) :=
  ⟨by decide,
    (C5_strict_key_priority envC5 ("C") ("out/_G - 1_temp") [] rfl).1 (by decide)⟩

/-! ### Path arithmetic for the packaging proofs (C10, C8) -/

theorem data_append (a b : String) : (a ++ b).data = a.data ++ b.data := rfl

theorem mk_data (s : String) : String.mk s.data = s := by cases s; rfl

theorem data_pjoin (a b : String) : (pjoin a b).data = a.data ++ '/' :: b.data := by
  rw [pjoin, data_append, data_append, List.append_assoc]
  rfl

theorem takeWhile_append_stop (q : Char → Bool) (y : Char) (hy : q y = false) :
    ∀ xs ys : List Char, (∀ c ∈ xs, q c = true) →
      (xs ++ y :: ys).takeWhile q = xs ∧ (xs ++ y :: ys).dropWhile q = y :: ys := by
  intro xs
  induction xs with
  | nil =>
    intro ys _
    constructor
    · rw [List.nil_append, List.takeWhile_cons, hy]
      simp
    · rw [List.nil_append, List.dropWhile_cons, hy]
      simp
  | cons x xs ih =>
    intro ys hall
    have hx : q x = true := hall x (List.mem_cons_self _ _)
    have hrest := ih ys (fun c hc => hall c (List.mem_cons_of_mem _ hc))
    constructor
    · rw [List.cons_append, List.takeWhile_cons, hx]
      simp [hrest.1]
    · rw [List.cons_append, List.dropWhile_cons, hx]
      simp [hrest.2]

theorem basenameOf_pjoin (a b : String)
    (hb : b.data.all (fun c => !(c == '/')) = true) :
    basenameOf (pjoin a b) = b := by
  rw [basenameOf, data_pjoin, List.reverse_append, List.reverse_cons, List.append_assoc,
    List.singleton_append]
  have hstop := takeWhile_append_stop (fun c => !(c == '/')) '/' (by decide)
    b.data.reverse a.data.reverse
    (fun c hc => (List.all_eq_true.mp hb) c (List.mem_reverse.mp hc))
  rw [hstop.1, List.reverse_reverse, mk_data]

theorem dirnameOf_pjoin (a b : String)
    (hb : b.data.all (fun c => !(c == '/')) = true) :
    dirnameOf (pjoin a b) = a := by
  rw [dirnameOf, data_pjoin, List.reverse_append, List.reverse_cons, List.append_assoc,
    List.singleton_append]
  have hstop := takeWhile_append_stop (fun c => !(c == '/')) '/' (by decide)
    b.data.reverse a.data.reverse
    (fun c hc => (List.all_eq_true.mp hb) c (List.mem_reverse.mp hc))
  rw [hstop.2, List.drop_one, List.tail_cons, List.reverse_reverse, mk_data]

theorem tempDirName_data (stem : String) :
    (tempDirName stem).data = '_' :: (stem.data ++ tempTailS.data) := rfl

theorem tempDirName_noSlash (stem : String)
    (hstem : stem.data.all (fun c => !(c == '/')) = true) :
    (tempDirName stem).data.all (fun c => !(c == '/')) = true := by
  rw [tempDirName_data]
  simp only [List.all_cons, List.all_append, hstem]
  decide

theorem stripTemp_tempDirName (stem : String) :
    stripTempName (tempDirName stem) = stem := by
  rw [stripTempName]
  have hcond : (startsWithS (tempDirName stem) underscoreS
      && endsWithS (tempDirName stem) tempTailS) = true := by
    have h1 : startsWithS (tempDirName stem) underscoreS = true := by
      rw [startsWithS, List.isPrefixOf_iff_prefix, tempDirName_data]
      exact ⟨stem.data ++ tempTailS.data, rfl⟩
    have h2 : endsWithS (tempDirName stem) tempTailS = true := by
      rw [endsWithS, List.isSuffixOf, List.isPrefixOf_iff_prefix, tempDirName_data,
        List.reverse_cons, List.reverse_append, List.append_assoc]
      exact List.prefix_append _ _
    rw [h1, h2]
    rfl
  rw [if_pos hcond, tempDirName_data, List.drop_one, List.tail_cons, List.reverse_append]
  rw [show (5 : Nat) = tempTailS.data.reverse.length from rfl, List.drop_left,
    List.reverse_reverse, mk_data]

/-- No string of the shape `'_' :: (s ++ M)` equals `s ++ E` when `E` does
not itself start with an underscore: chasing the leading underscores of `s`
eventually exposes differing head characters. -/
theorem underscore_chase (E : List Char) (hE : ∀ M, ¬ ('_' :: M = E)) :
    ∀ s M : List Char, ¬ ('_' :: (s ++ M) = s ++ E) := by
  intro s
  induction s with
  | nil => intro M h; exact hE M h
  | cons c s ih =>
    intro M h
    rw [List.cons_append] at h
    injection h with h1 h2
    rw [← h1] at h2
    exact ih M h2

theorem zipSuffix_head (selected : List String) (repos : List (String × RepoType)) :
    ∀ M, ¬ ('_' :: M = (zipSuffixOf selected repos).data) := by
  intro M h
  rw [zipSuffixOf] at h
  by_cases he : isEncryptedSource selected repos = true
  · rw [if_pos he] at h
    injection h with h1 _
    exact absurd h1 (by decide)
  · rw [if_neg he] at h
    injection h with h1 _
    exact absurd h1 (by decide)

/-- The archive path computed by `zip_outcome` is never located inside the
processing directory itself. -/
theorem zp_not_under (outBase stem : String) (selected : List String)
    (repos : List (String × RepoType))
    (hstem : stem.data.all (fun c => !(c == '/')) = true) :
    underDirB (zipPathOf (pjoin outBase (tempDirName stem)) selected repos)
      (pjoin outBase (tempDirName stem)) = false := by
  have htd := tempDirName_noSlash stem hstem
  rw [zipPathOf, dirnameOf_pjoin _ _ htd, zipNameOf, basenameOf_pjoin _ _ htd,
    stripTemp_tempDirName]
  cases hx : underDirB (pjoin outBase (stem ++ zipSuffixOf selected repos))
      (pjoin outBase (tempDirName stem)) with
  | false => rfl
  | true =>
    exfalso
    rw [underDirB, List.isPrefixOf_iff_prefix] at hx
    rcases hx with ⟨t, ht⟩
    rw [data_pjoin, data_pjoin, data_append, tempDirName_data] at ht
    simp only [List.append_assoc, List.cons_append, List.singleton_append] at ht
    have ht2 := List.append_cancel_left ht
    injection ht2 with _ ht3
    exact underscore_chase (zipSuffixOf selected repos).data
      (zipSuffix_head selected repos) stem.data _ ht3

/-! ### File-system frame lemmas -/

theorem relFilesUnder_cons_notUnder (fs : FS) (p : String) (b : Bytes) (dir : String)
    (h : underDirB p dir = false) :
    relFilesUnder ((p, b) :: fs) dir = relFilesUnder fs dir := by
  simp [relFilesUnder, List.filterMap_cons, dropUnder, h]

theorem relFilesUnder_remove_notUnder (fs : FS) (p dir : String)
    (h : underDirB p dir = false) :
    relFilesUnder (fsRemove fs p) dir = relFilesUnder fs dir := by
  induction fs with
  | nil => rfl
  | cons e fs ih =>
    by_cases he : (e.1 == p) = true
    · have hrm : fsRemove (e :: fs) p = fsRemove fs p := by
        simp [fsRemove, List.filter_cons, he]
      have h1 : underDirB e.1 dir = false := by rw [eq_of_beq he]; exact h
      rw [hrm, ih]
      cases e with
      | mk q b =>
        exact (relFilesUnder_cons_notUnder fs q b dir h1).symm
    · have hrm : fsRemove (e :: fs) p = e :: fsRemove fs p := by
        simp [fsRemove, List.filter_cons, he]
      rw [hrm]
      simp only [relFilesUnder, List.filterMap_cons] at ih ⊢
      cases hdu : dropUnder dir e.1 <;> simp [hdu, ih]

theorem relFilesUnder_insert_notUnder (fs : FS) (p : String) (b : Bytes) (dir : String)
    (h : underDirB p dir = false) :
    relFilesUnder (fsInsert fs p b) dir = relFilesUnder fs dir := by
  rw [fsInsert, relFilesUnder_cons_notUnder _ _ _ _ h,
    relFilesUnder_remove_notUnder _ _ _ h]

theorem fsLookup_insert_self (fs : FS) (p : String) (b : Bytes) :
    fsLookup (fsInsert fs p b) p = some b := by
  simp [fsInsert, fsLookup]

theorem fsLookup_filter_keep (fs : FS) (pr : String × Bytes → Bool) (p : String)
    (h : ∀ c, pr (p, c) = true) :
    fsLookup (fs.filter pr) p = fsLookup fs p := by
  induction fs with
  | nil => rfl
  | cons e fs ih =>
    by_cases hpr : pr e = true
    · have hf : (e :: fs).filter pr = e :: fs.filter pr := by
        simp [List.filter_cons, hpr]
      rw [hf, fsLookup, fsLookup]
      by_cases hep : (e.1 == p) = true
      · rw [if_pos hep, if_pos hep]
      · rw [if_neg hep, if_neg hep]
        exact ih
    · have hep : (e.1 == p) = false := by
        cases hx : e.1 == p with
        | false => rfl
        | true =>
          exfalso
          apply hpr
          have he : e = (p, e.2) := by
            cases e with
            | mk q c =>
              have : q = p := eq_of_beq hx
              rw [this]
          rw [he]
          exact h e.2
      have hf : (e :: fs).filter pr = fs.filter pr := by
        simp [List.filter_cons, hpr]
      rw [hf, ih, fsLookup, if_neg (by rw [hep]; exact Bool.false_ne_true)]

/-- Atomicity of the archive-writing tail. -/
theorem zipWrite_cases (fs1 : FS) (dir : String) (selected : List String)
    (repos : List (String × RepoType)) (strict zipFail rmFail : Bool)
    (junkB : Option Bytes)
    (hnu : underDirB (zipPathOf dir selected repos) dir = false) :
    ((zipWrite fs1 dir selected repos strict zipFail rmFail junkB).path = none →
      relFilesUnder (zipWrite fs1 dir selected repos strict zipFail rmFail junkB).fs dir
        = relFilesUnder fs1 dir)
    ∧ (∀ zp, (zipWrite fs1 dir selected repos strict zipFail rmFail junkB).path = some zp →
        zipFail = false ∧
        (fsLookup (zipWrite fs1 dir selected repos strict zipFail rmFail junkB).fs
          zp).isSome = true) := by
  unfold zipWrite
  by_cases hzf : zipFail = true
  · rw [if_pos hzf]
    constructor
    · intro _
      cases junkB with
      | none => rfl
      | some jb => exact relFilesUnder_insert_notUnder _ _ _ _ hnu
    · intro zp h
      exact Option.noConfusion h
  · rw [if_neg hzf]
    constructor
    · intro h
      exact Option.noConfusion h
    · intro zp h
      have hzpe : zipPathOf dir selected repos = zp := by
        cases h
        rfl
      refine ⟨by rw [Bool.not_eq_true] at hzf; exact hzf, ?_⟩
      rw [← hzpe]
      by_cases hrm : rmFail = true
      · rw [if_pos hrm]
        dsimp only
        rw [fsLookup_insert_self]
        rfl
      · rw [if_neg hrm]
        dsimp only
        rw [fsLookup_filter_keep _ _ _ (fun c => by rw [hnu]; rfl),
          fsLookup_insert_self]
        rfl

/-- C10: packaging is atomic with respect to the processing directory.
Whenever `zip_outcome` returns no output path (missing directory, failed
removal of a pre-existing archive, or a failed archive write), the
processing directory's files are exactly as before the call; and whenever
it returns a path, the archive write succeeded and the archive file is
present on disk — so the directory is only ever deleted after the archive
has been completely and successfully written. -/
theorem C10_zip_atomicity (outBase stem : String) (selected : List String)
    (repos : List (String × RepoType)) (strict dirOk zipFail rmFail removeFail : Bool)
    (junkB : Option Bytes) (fs : FS)
    (hstem : stem.data.all (fun c => !(c == '/')) = true) :
    ((zipOutcome fs (pjoin outBase (tempDirName stem)) selected repos strict
        dirOk zipFail rmFail removeFail junkB).path = none →
      relFilesUnder (zipOutcome fs (pjoin outBase (tempDirName stem)) selected repos strict
        dirOk zipFail rmFail removeFail junkB).fs (pjoin outBase (tempDirName stem))
        = relFilesUnder fs (pjoin outBase (tempDirName stem)))
    ∧ (∀ zp, (zipOutcome fs (pjoin outBase (tempDirName stem)) selected repos strict
        dirOk zipFail rmFail removeFail junkB).path = some zp →
        zipFail = false ∧
        (fsLookup (zipOutcome fs (pjoin outBase (tempDirName stem)) selected repos strict
          dirOk zipFail rmFail removeFail junkB).fs zp).isSome = true)
    ∧ (¬ relFilesUnder (zipOutcome fs (pjoin outBase (tempDirName stem)) selected repos strict
        dirOk zipFail rmFail removeFail junkB).fs (pjoin outBase (tempDirName stem))
        = relFilesUnder fs (pjoin outBase (tempDirName stem)) →
      ¬ (zipOutcome fs (pjoin outBase (tempDirName stem)) selected repos strict
        dirOk zipFail rmFail removeFail junkB).path = none) := by
  have hnu := zp_not_under outBase stem selected repos hstem
  have hmain :
      ((zipOutcome fs (pjoin outBase (tempDirName stem)) selected repos strict
          dirOk zipFail rmFail removeFail junkB).path = none →
        relFilesUnder (zipOutcome fs (pjoin outBase (tempDirName stem)) selected repos strict
          dirOk zipFail rmFail removeFail junkB).fs (pjoin outBase (tempDirName stem))
          = relFilesUnder fs (pjoin outBase (tempDirName stem)))
      ∧ (∀ zp, (zipOutcome fs (pjoin outBase (tempDirName stem)) selected repos strict
          dirOk zipFail rmFail removeFail junkB).path = some zp →
          zipFail = false ∧
          (fsLookup (zipOutcome fs (pjoin outBase (tempDirName stem)) selected repos strict
            dirOk zipFail rmFail removeFail junkB).fs zp).isSome = true) := by
    unfold zipOutcome
    by_cases hd : (!dirOk) = true
    · rw [if_pos hd]
      exact ⟨fun _ => rfl, fun zp h => Option.noConfusion h⟩
    · rw [if_neg hd]
      by_cases hrf : (fsHas fs (zipPathOf (pjoin outBase (tempDirName stem)) selected repos)
          && removeFail) = true
      · rw [if_pos hrf]
        exact ⟨fun _ => rfl, fun zp h => Option.noConfusion h⟩
      · rw [if_neg hrf]
        have hfs1 : relFilesUnder
            (if fsHas fs (zipPathOf (pjoin outBase (tempDirName stem)) selected repos)
              then fsRemove fs (zipPathOf (pjoin outBase (tempDirName stem)) selected repos)
              else fs) (pjoin outBase (tempDirName stem))
            = relFilesUnder fs (pjoin outBase (tempDirName stem)) := by
          by_cases hh : fsHas fs (zipPathOf (pjoin outBase (tempDirName stem))
              selected repos) = true
          · rw [if_pos hh]
            exact relFilesUnder_remove_notUnder fs _ _ hnu
          · rw [if_neg hh]
        have hw := zipWrite_cases
          (if fsHas fs (zipPathOf (pjoin outBase (tempDirName stem)) selected repos)
            then fsRemove fs (zipPathOf (pjoin outBase (tempDirName stem)) selected repos)
            else fs)
          (pjoin outBase (tempDirName stem)) selected repos strict zipFail rmFail junkB hnu
        exact ⟨fun h => (hw.1 h).trans hfs1, hw.2⟩
  exact ⟨hmain.1, hmain.2, fun hch hnone => hch (hmain.1 hnone)⟩

/-! ### PassThrough outcomes (C8) -/

theorem getManifest_fs_shape (env : Env) (repo path dir : String) (fs : FS) :
    (getManifest env repo path dir fs).1 = fs ∨
    ∃ c, (getManifest env repo path dir fs).1 = fsInsert fs (pjoin dir path) c := by
  unfold getManifest
  by_cases hc : env.cancel = true
  · rw [if_pos hc]
    exact Or.inl rfl
  · rw [if_neg hc]
    cases hcon : contentOf env repo path fs (pjoin dir path) (toLowerS path) with
    | none => exact Or.inl rfl
    | some c =>
      dsimp only
      by_cases hce : c.isEmpty = true
      · rw [if_pos hce]
        exact Or.inl rfl
      · rw [if_neg hce]
        by_cases hsd : shouldDownloadB fs (pjoin dir path) (toLowerS path) = true
        · rw [if_pos hsd]
          exact Or.inr ⟨c, rfl⟩
        · rw [if_neg hsd]
          exact Or.inl rfl

theorem fsLookup_remove_other (fs : FS) (p q : String) (h : ¬ q = p) :
    fsLookup (fsRemove fs p) q = fsLookup fs q := by
  refine fsLookup_filter_keep fs _ q ?_
  intro c
  have : (q == p) = false := beq_eq_false_iff_ne.mpr h
  simp [this]

theorem fsLookup_insert_other (fs : FS) (p q : String) (b : Bytes) (h : ¬ q = p) :
    fsLookup (fsInsert fs p b) q = fsLookup fs q := by
  rw [fsInsert, fsLookup]
  have hpq : (p == q) = false := beq_eq_false_iff_ne.mpr (fun he => h he.symm)
  rw [if_neg (by rw [hpq]; exact Bool.false_ne_true)]
  exact fsLookup_remove_other fs p q h

theorem getManifest_lookup_other (env : Env) (repo path dir : String) (fs : FS)
    (q : String) (hq : ∀ x, ¬ q = pjoin dir x) :
    fsLookup (getManifest env repo path dir fs).1 q = fsLookup fs q := by
  rcases getManifest_fs_shape env repo path dir fs with h | ⟨c, h⟩
  · rw [h]
  · rw [h]
    exact fsLookup_insert_other fs _ q c (hq path)

theorem strictKeyLoop_lookup_other (env : Env) (repo dir q : String)
    (hq : ∀ x, ¬ q = pjoin dir x) :
    ∀ (l : List (String × String)) (fs : FS) (dep : List DK) (f1 f2 : Bool),
      fsLookup (strictKeyLoop env repo dir l fs dep f1 f2).fs q = fsLookup fs q := by
  intro l
  induction l with
  | nil => intro fs dep f1 f2; rfl
  | cons e rest ih =>
    intro fs dep f1 f2
    rw [strictKeyLoop]
    by_cases hc : env.cancel = true
    · rw [if_pos hc]
    · rw [if_neg hc]
      by_cases hemp : (getManifest env repo e.1 dir fs).2.isEmpty = true
      · rw [if_pos hemp]
        dsimp only
        rw [ih]
        exact getManifest_lookup_other env repo e.1 dir fs q hq
      · rw [if_neg hemp]
        by_cases hk : (e.2 == keyVdfName) = true
        · rw [if_pos hk]
          exact getManifest_lookup_other env repo e.1 dir fs q hq
        · rw [if_neg hk]
          dsimp only
          rw [ih]
          exact getManifest_lookup_other env repo e.1 dir fs q hq

theorem manifestLoop_lookup_other (env : Env) (repo dir q : String)
    (hq : ∀ x, ¬ q = pjoin dir x) :
    ∀ (l : List TreeItem) (fs : FS) (flag : Bool),
      fsLookup (manifestLoop env repo dir l fs flag).1 q = fsLookup fs q := by
  intro l
  induction l with
  | nil => intro fs flag; rfl
  | cons it rest ih =>
    intro fs flag
    rw [manifestLoop]
    by_cases hc : env.cancel = true
    · rw [if_pos hc]
    · rw [if_neg hc]
      by_cases hb : (it.isBlob && endsWithS (toLowerS it.path) manifestExtS) = true
      · rw [if_pos hb]
        rw [ih]
        exact getManifest_lookup_other env repo it.path dir fs q hq
      · rw [if_neg hb]
        exact ih fs flag

theorem permissiveLoop_lookup_other (env : Env) (repo dir q : String)
    (hq : ∀ x, ¬ q = pjoin dir x) :
    ∀ (l : List TreeItem) (fs : FS) (dep : List DK) (flag : Bool),
      fsLookup (permissiveLoop env repo dir l fs dep flag).1 q = fsLookup fs q := by
  intro l
  induction l with
  | nil => intro fs dep flag; rfl
  | cons it rest ih =>
    intro fs dep flag
    rw [permissiveLoop]
    by_cases hc : env.cancel = true
    · rw [if_pos hc]
    · rw [if_neg hc]
      by_cases hb : it.isBlob = true
      · rw [if_pos hb]
        rw [ih]
        exact getManifest_lookup_other env repo it.path dir fs q hq
      · rw [if_neg hb]
        exact ih fs dep flag

theorem procKeyRepo_lookup_other (env : Env) (repo dir : String) (fs : FS) (q : String)
    (hq : ∀ x, ¬ q = pjoin dir x) :
    fsLookup (procKeyRepo env repo dir fs).1 q = fsLookup fs q := by
  unfold procKeyRepo
  by_cases h1 : (!(env.branchResolves repo)) = true
  · rw [if_pos h1]
  · rw [if_neg h1]
    by_cases h2 : (!(env.treeOk repo)) = true
    · rw [if_pos h2]
    · rw [if_neg h2]
      by_cases h3 : (env.treeItems repo).isEmpty = true
      · rw [if_pos h3]
      · rw [if_neg h3]
        by_cases h4 : env.strict = true
        · rw [if_pos h4]
          rw [strictRepoRes]
          dsimp only
          rw [manifestLoop_lookup_other env repo dir q hq]
          rw [strictKeyLoop_lookup_other env repo dir q hq]
        · rw [if_neg h4]
          exact permissiveLoop_lookup_other env repo dir q hq _ fs [] false

/-- The per-AppID Branch archive path (outside the processing directory) is
never one of the paths that a KeySource attempt writes (all of which live
inside the processing directory). -/
theorem zipPath_ne_under (outBase stem x : String) :
    ¬ pjoin outBase (stem ++ zipExtS) = pjoin (pjoin outBase (tempDirName stem)) x := by
  intro h
  have hd := congrArg String.data h
  rw [data_pjoin, data_pjoin, data_pjoin, data_append, tempDirName_data] at hd
  simp only [List.append_assoc, List.cons_append] at hd
  have h2 := List.append_cancel_left hd
  injection h2 with _ h3
  have hlen := congrArg List.length h3
  have hz : zipExtS.data.length = 4 := rfl
  have ht : tempTailS.data.length = 5 := rfl
  simp only [List.length_append, List.length_cons, hz, ht] at hlen
  omega

/-- What the pipeline guarantees for a PassThrough-sourced outcome: no
depot keys, the outcome names a Branch repository, and the artifact at the
output path is byte-identical to the origin's archive body — or is the
archive that already existed on disk, left untouched. -/
def branchOutcomeSpec (env : Env) (fs : FS) (o : Outcome) : Prop :=
  o.depots = [] ∧
  ∃ repo zp, o.source = some repo ∧ lookupRT env.repos repo = some RepoType.Branch ∧
    o.outputPath = some zp ∧
    ((∃ c, env.zipContent repo = some c ∧ fsLookup o.fs zp = some c)
     ∨ (fsLookup o.fs zp = fsLookup fs zp ∧ (fsLookup fs zp).isSome = true))

theorem procBranchRepo_some (env : Env) (repo zp : String) (fs : FS) (o : Outcome)
    (h : procBranchRepo env repo zp fs = some o) :
    o.depots = [] ∧ o.outputPath = some zp ∧ o.sourceWasBranch = true ∧
    o.source = some repo ∧
    ((∃ c, env.zipContent repo = some c ∧ fsLookup o.fs zp = some c)
     ∨ (fsLookup o.fs zp = fsLookup fs zp ∧ (fsLookup fs zp).isSome = true)) := by
  unfold procBranchRepo at h
  by_cases hh : fsHas fs zp = true
  · rw [if_pos hh] at h
    injection h with h'
    subst h'
    exact ⟨rfl, rfl, rfl, rfl, Or.inr ⟨rfl, hh⟩⟩
  · rw [if_neg hh] at h
    cases hzc : env.zipContent repo with
    | none => rw [hzc] at h; cases h
    | some c =>
      rw [hzc] at h
      dsimp only at h
      by_cases hce : c.isEmpty = true
      · rw [if_pos hce] at h; cases h
      · rw [if_neg hce] at h
        injection h with h'
        subst h'
        exact ⟨rfl, rfl, rfl, rfl, Or.inl ⟨c, rfl, fsLookup_insert_self fs zp c⟩⟩

theorem procRepos_branch (env : Env) (stem outBase : String) :
    ∀ (l : List String) (fs : FS) (acc : List DK),
      (procRepos env stem outBase l fs acc).sourceWasBranch = true →
      env.cancel = false ∧
      (procRepos env stem outBase l fs acc).depots = [] ∧
      ∃ repo, (procRepos env stem outBase l fs acc).source = some repo ∧
        lookupRT env.repos repo = some RepoType.Branch ∧
        (procRepos env stem outBase l fs acc).outputPath
          = some (pjoin outBase (stem ++ zipExtS)) ∧
        ((∃ c, env.zipContent repo = some c ∧
            fsLookup (procRepos env stem outBase l fs acc).fs
              (pjoin outBase (stem ++ zipExtS)) = some c)
         ∨ (fsLookup (procRepos env stem outBase l fs acc).fs
              (pjoin outBase (stem ++ zipExtS))
              = fsLookup fs (pjoin outBase (stem ++ zipExtS))
            ∧ (fsLookup fs (pjoin outBase (stem ++ zipExtS))).isSome = true)) := by
  intro l
  induction l with
  | nil =>
    intro fs acc h
    rw [procRepos] at h
    simp at h
  | cons repo rest ih =>
    intro fs acc h
    rw [procRepos] at h ⊢
    by_cases hc : env.cancel = true
    · rw [if_pos hc] at h
      simp at h
    · rw [if_neg hc] at h ⊢
      have hcf : env.cancel = false := by rw [Bool.not_eq_true] at hc; exact hc
      cases hrt : lookupRT env.repos repo with
      | none =>
        rw [hrt] at h
        exact ih fs acc h
      | some rt =>
        cases rt with
        | Branch =>
          rw [hrt] at h
          cases hbr : procBranchRepo env repo (pjoin outBase (stem ++ zipExtS)) fs with
          | none =>
            rw [hbr] at h
            exact ih fs acc h
          | some o =>
            rw [hbr] at h
            obtain ⟨hdep, hout, _, hsrc, hdisj⟩ :=
              procBranchRepo_some env repo _ fs o hbr
            exact ⟨hcf, hdep, repo, hsrc, hrt, hout, hdisj⟩
        | Encrypted =>
          rw [hrt] at h
          dsimp only at h ⊢
          by_cases hs : (procKeyRepo env repo (pjoin outBase (tempDirName stem)) fs).2.2 = true
          · rw [if_pos hs] at h
            simp at h
          · rw [if_neg hs] at h ⊢
            obtain ⟨hcf', hdep', r2, hsrc, hlk, hout, hdisj⟩ :=
              ih (procKeyRepo env repo (pjoin outBase (tempDirName stem)) fs).1 acc h
            have hpres := procKeyRepo_lookup_other env repo
              (pjoin outBase (tempDirName stem)) fs
              (pjoin outBase (stem ++ zipExtS))
              (fun x => zipPath_ne_under outBase stem x)
            refine ⟨hcf', hdep', r2, hsrc, hlk, hout, ?_⟩
            rcases hdisj with h1 | ⟨h2a, h2b⟩
            · exact Or.inl h1
            · right
              rw [← hpres]
              exact ⟨h2a, h2b⟩
        | Decrypted =>
          rw [hrt] at h
          dsimp only at h ⊢
          by_cases hs : (procKeyRepo env repo (pjoin outBase (tempDirName stem)) fs).2.2 = true
          · rw [if_pos hs] at h
            simp at h
          · rw [if_neg hs] at h ⊢
            obtain ⟨hcf', hdep', r2, hsrc, hlk, hout, hdisj⟩ :=
              ih (procKeyRepo env repo (pjoin outBase (tempDirName stem)) fs).1 acc h
            have hpres := procKeyRepo_lookup_other env repo
              (pjoin outBase (tempDirName stem)) fs
              (pjoin outBase (stem ++ zipExtS))
              (fun x => zipPath_ne_under outBase stem x)
            refine ⟨hcf', hdep', r2, hsrc, hlk, hout, ?_⟩
            rcases hdisj with h1 | ⟨h2a, h2b⟩
            · exact Or.inl h1
            · right
              rw [← hpres]
              exact ⟨h2a, h2b⟩

/-- C8: for every request whose outcome is produced by a PassThrough
(Branch) repository, the collected depot-key list is empty, the batch step
neither writes an unlock script nor packages anything — the outcome's
saved archive is the final artifact — and the file at the output path is
byte-identical to the archive body the origin returned, or is the
pre-existing archive found at the expected output path. -/
theorem C8_passthrough (env : Env) (selected : List String)
    (appIdInput gameName outBase : String) (fs : FS)
    (dirOk zipFail rmFail removeFail : Bool) (junkB : Option Bytes)
    (h : (performDownload env selected appIdInput gameName outBase fs).sourceWasBranch
      = true) :
    branchOutcomeSpec env fs (performDownload env selected appIdInput gameName outBase fs) ∧
    postProcess env selected appIdInput dirOk zipFail rmFail removeFail junkB
        (performDownload env selected appIdInput gameName outBase fs)
      = ⟨(performDownload env selected appIdInput gameName outBase fs).fs,
          (performDownload env selected appIdInput gameName outBase fs).outputPath, []⟩ := by
  unfold performDownload at h ⊢
  by_cases hd : (appIdInput.data.takeWhile Char.isDigit).isEmpty = true
  · rw [if_pos hd] at h
    simp at h
  · rw [if_neg hd] at h ⊢
    obtain ⟨hcf, hdep, repo, hsrc, hlk, hout, hdisj⟩ :=
      procRepos_branch env
        (stemOf (String.mk (appIdInput.data.takeWhile Char.isDigit)) gameName)
        outBase selected fs [] h
    constructor
    · exact ⟨hdep, repo,
        pjoin outBase
          (stemOf (String.mk (appIdInput.data.takeWhile Char.isDigit)) gameName ++ zipExtS),
        hsrc, hlk, hout, hdisj⟩
    · unfold postProcess
      rw [if_neg (by simp [hcf]), if_pos h]

/-- Environment of the C8 witness: one Branch repository serving a two-byte
archive body. -/
def envC8 : Env where
  repos := [("BR", RepoType.Branch)]
  strict := false
  cancel := false
  branchResolves := fun _ => false
  treeOk := fun _ => true
  treeItems := fun _ => []
  fileContent := fun _ _ => none
  zipContent := fun r => if r == "BR" then some [5, 6] else none
  parseDepots := fun _ => []

/-- Witness for C8 at the concrete Branch-only environment. -/
theorem C8_witness :
    (performDownload envC8 ["BR"] ("1") ("G") ("out") []).sourceWasBranch = true ∧
    branchOutcomeSpec envC8 [] (performDownload envC8 ["BR"] ("1") ("G") ("out") []) :=
  ⟨by decide,
    (C8_passthrough envC8 ["BR"] ("1") ("G") ("out") [] true false false false none
      (by decide)).1⟩

/-- Witness for C10: a failing archive write at a concrete directory leaves
the single file of the processing directory in place and returns no path. -/
theorem C10_witness :
    ((zipOutcome fsC9 (pjoin ("out") (tempDirName ("G - 1"))) selC4 envC4.repos true
        true true false false none).path = none →
      relFilesUnder (zipOutcome fsC9 (pjoin ("out") (tempDirName ("G - 1"))) selC4
          envC4.repos true true true false false none).fs
          (pjoin ("out") (tempDirName ("G - 1")))
        = relFilesUnder fsC9 (pjoin ("out") (tempDirName ("G - 1")))) ∧
    relFilesUnder (zipOutcome fsC9 (pjoin ("out") (tempDirName ("G - 1"))) selC4
        envC4.repos true true true false false none).fs
        (pjoin ("out") (tempDirName ("G - 1")))
      = relFilesUnder fsC9 (pjoin ("out") (tempDirName ("G - 1"))) :=
  ⟨(C10_zip_atomicity ("out") ("G - 1") selC4 envC4.repos true true true false false
      none fsC9 (by decide)).1,
    (C10_zip_atomicity ("out") ("G - 1") selC4 envC4.repos true true true false false
      none fsC9 (by decide)).1 (by decide)⟩

end SDO
